import Mathlib

/-!
Verification of the Sudoku generation/solving engine in `src/main.py`.

The engine operates on 9x9 grids (`Board`), a Python list of lists of
integers in [0,9] where 0 marks an empty cell.  In this development a board
is shallowly embedded as a function `Nat → Nat → Nat`; in-place mutation
(`board[r][c] = n`) is modelled by state passing with `setCell`, and every
function that mutates a board in Python returns its final board value here.
Python's `random.shuffle` is modelled by oracle parameters (`shuffle` for
lists of digits, `shuffleC` for the list of coordinates); theorems that
need it assume the oracle returns a permutation of its input, which is the
only property `random.shuffle` guarantees.  A global call counter `k` is
threaded through so that each `random.shuffle()` call in the source
corresponds to one oracle invocation.
-/

set_option maxRecDepth 4000

abbrev Board : Type := Nat → Nat → Nat

/-- Model of the Python statement `board[row][col] = num`. -/
def setCell (board : Board) (row col num : Nat) : Board :=
  fun r c => if r = row ∧ c = col then num else board r c

/-- Embedding of `is_safe` (src/main.py lines 38-50): scan the row and the
column, then the 3x3 subgrid with origin `(row - row % 3, col - col % 3)`,
returning false as soon as `num` is found. -/
def is_safe (board : Board) (row col num : Nat) : Bool :=
  if (List.range 9).any (fun i => board row i == num || board i col == num) then
    false
  else
    let start_row := row - row % 3
    let start_col := col - col % 3
    if (List.range 3).any (fun dr =>
        (List.range 3).any (fun dc => board (start_row + dr) (start_col + dc) == num)) then
      false
    else
      true

/-- Embedding of `find_empty` (src/main.py lines 53-58): the first cell equal
to 0 in row-major order, if any. -/
def find_empty (board : Board) : Option (Nat × Nat) :=
  (List.range 9).findSome? (fun r =>
    ((List.range 9).find? (fun c => board r c == 0)).map (fun c => (r, c)))

/-- Number of empty cells of the 9x9 grid.  Not part of the source; it is the
termination measure of the backtracking search (the recursion depth of
`solve_board` is bounded by the number of empty cells). -/
def zeros (board : Board) : Nat :=
  (((Finset.range 9) ×ˢ (Finset.range 9)).filter (fun p => board p.1 p.2 = 0)).card

/-- The `for n in nums` loop of `solve_board` (src/main.py lines 68-73): try
each candidate in order; `solveNext` is the recursive `solve_board` call of
the next search level; on recursive failure reset the cell to 0 (on the
board returned by the failed call) and continue with the next candidate. -/
def tryNums (solveNext : Board → Nat → Bool × Board × Nat) :
    Board → Nat → Nat → List Nat → Nat → Bool × Board × Nat
  | board, _, _, [], k => (false, board, k)
  | board, r, c, n :: rest, k =>
    if is_safe board r c n then
      match solveNext (setCell board r c n) k with
      | (true, board2, k2) => (true, board2, k2)
      | (false, board2, k2) => tryNums solveNext (setCell board2 r c 0) r c rest k2
    else
      tryNums solveNext board r c rest k

/-- Embedding of `solve_board` (src/main.py lines 61-74), fuelled.  One unit
of fuel is consumed per placement; `solve_board` below supplies
`zeros board + 1` fuel, which is proven sufficient (the fuel-out branch is
never reached from there).  The candidate list is
`shuffle k (List.range' 1 9)`, the oracle's shuffling of `list(range(1, 10))`. -/
def solveFuel (shuffle : Nat → List Nat → List Nat) :
    Nat → Board → Nat → Bool × Board × Nat
  | 0, board, k => (false, board, k)
  | fuel + 1, board, k =>
    match find_empty board with
    | none => (true, board, k)
    | some (r, c) =>
      tryNums (solveFuel shuffle fuel) board r c (shuffle k (List.range' 1 9)) (k + 1)

/-- Top-level `solve_board`: the fuelled search with sufficient fuel.
Returns (result, final board, next oracle index). -/
def solve_board (shuffle : Nat → List Nat → List Nat) (board : Board) (k : Nat) :
    Bool × Board × Nat :=
  solveFuel shuffle (zeros board + 1) board k

/-- The difficulty table of `remove_cells` (src/main.py lines 95-100):
`easy` → 35, `medium` → 45, anything else → 55. -/
def removalsFor (difficulty : String) : Nat :=
  if difficulty = "easy" then 35
  else if difficulty = "medium" then 45
  else 55

/-- The `for r, c in cells` loop of `remove_cells` (src/main.py lines
104-114).  The state threads the caller's `board` (never written, returned
first), the working copy `puzzle`, the counters, and the oracle index. -/
def removeLoop (shuffle : Nat → List Nat → List Nat) :
    List (Nat × Nat) → Board → Board → Nat → Nat → Nat → Board × Board × Nat
  | [], board, puzzle, _, _, k => (board, puzzle, k)
  | (r, c) :: rest, board, puzzle, removals, removed, k =>
    if removed ≥ removals then (board, puzzle, k)
    else
      let backup := puzzle r c
      let puzzle2 := setCell puzzle r c 0
      let test := puzzle2
      let res := solve_board shuffle test k
      if res.1 then removeLoop shuffle rest board puzzle2 removals (removed + 1) res.2.2
      else removeLoop shuffle rest board (setCell puzzle2 r c backup) removals removed res.2.2

/-- The list `[(r, c) for r in range(9) for c in range(9)]`. -/
def allCells : List (Nat × Nat) :=
  (List.range 9).flatMap (fun r => (List.range 9).map (fun c => (r, c)))

/-- Embedding of `remove_cells` (src/main.py lines 92-115).  Returns
(final state of the argument `board`, `puzzle`, next oracle index); the
first component models the caller's grid after the call (the source only
reads it, through the copy `puzzle = [row[:] for row in board]`; with pure
values the copy is the value itself). -/
def remove_cells (shuffle : Nat → List Nat → List Nat)
    (shuffleC : List (Nat × Nat) → List (Nat × Nat))
    (board : Board) (difficulty : String) (k : Nat) : Board × Board × Nat :=
  let puzzle := board
  let removals := removalsFor difficulty
  let cells := shuffleC allCells
  removeLoop shuffle cells board puzzle removals 0 k

/-- Python's `nums[idx]` walk filling one 3x3 box (src/main.py lines 83-87):
`board[k+dr][k+dc] = nums[3*dr+dc]`. -/
def fillBox (board : Board) (k : Nat) (nums : List Nat) : Board :=
  (List.range 3).foldl (fun b dr =>
    (List.range 3).foldl (fun b2 dc => setCell b2 (k + dr) (k + dc) (nums.getD (3 * dr + dc) 0)) b)
    board

/-- Embedding of `generate_full_board` (src/main.py lines 77-89): seed the
three diagonal subgrids with shuffled digit lists, then run `solve_board`
(its Boolean result is ignored, as in the source) and return the board. -/
def generate_full_board (shuffle : Nat → List Nat → List Nat) (k : Nat) : Board × Nat :=
  let board : Board := fun _ _ => 0
  let board := fillBox board 0 (shuffle k (List.range' 1 9))
  let board := fillBox board 3 (shuffle (k + 1) (List.range' 1 9))
  let board := fillBox board 6 (shuffle (k + 2) (List.range' 1 9))
  let res := solve_board shuffle board (k + 3)
  (res.2.1, res.2.2)

/-- Embedding of `generate_puzzle` (src/main.py lines 118-121): the pair
(puzzle, full) where `full` is the grid as it stands after `remove_cells`
returned (the source passes the same list object through). -/
def generate_puzzle (shuffle : Nat → List Nat → List Nat)
    (shuffleC : List (Nat × Nat) → List (Nat × Nat))
    (difficulty : String) (k : Nat) : (Board × Board) × Nat :=
  let fullRes := generate_full_board shuffle k
  let res := remove_cells shuffle shuffleC fullRes.1 difficulty fullRes.2
  ((res.2.1, res.1), res.2.2)

/-- Number of clue (non-zero) cells of the 9x9 grid. -/
def nonzeroCount (board : Board) : Nat :=
  (((Finset.range 9) ×ˢ (Finset.range 9)).filter (fun p => board p.1 p.2 ≠ 0)).card

/-! ## Specification predicates -/

/-- The grid is fully filled. -/
def noZeros (board : Board) : Prop := ∀ r < 9, ∀ c < 9, board r c ≠ 0

/-- Every cell holds a value at most 9. -/
def inRange (board : Board) : Prop := ∀ r < 9, ∀ c < 9, board r c ≤ 9

/-- `g` is obtained from `s` by setting some subset of cells to 0. -/
def subBoard (g s : Board) : Prop := ∀ r < 9, ∀ c < 9, g r c = s r c ∨ g r c = 0

/-- Every row contains each digit 1-9 exactly once. -/
def rowsOK (board : Board) : Prop :=
  ∀ r < 9, ∀ d < 10, 1 ≤ d → ((Finset.range 9).filter (fun c => board r c = d)).card = 1

/-- Every column contains each digit 1-9 exactly once. -/
def colsOK (board : Board) : Prop :=
  ∀ c < 9, ∀ d < 10, 1 ≤ d → ((Finset.range 9).filter (fun r => board r c = d)).card = 1

/-- Every 3x3 subgrid contains each digit 1-9 exactly once (the box with
origin `(3*br, 3*bc)`, its nine cells enumerated row-major by `i`). -/
def boxesOK (board : Board) : Prop :=
  ∀ br < 3, ∀ bc < 3, ∀ d < 10, 1 ≤ d →
    ((Finset.range 9).filter (fun i => board (3 * br + i / 3) (3 * bc + i % 3) = d)).card = 1

/-- A valid fully solved Sudoku grid. -/
def solvedBoard (board : Board) : Prop :=
  noZeros board ∧ rowsOK board ∧ colsOK board ∧ boxesOK board

/-- All non-zero cells satisfy row/column/subgrid uniqueness: no other cell
of the same row, column, or 3x3 box holds the same non-zero value. -/
def validPartial (board : Board) : Prop :=
  ∀ r < 9, ∀ c < 9, ∀ r2 < 9, ∀ c2 < 9, ¬(r = r2 ∧ c = c2) → board r c ≠ 0 →
    ((r = r2 → board r c ≠ board r2 c2) ∧
     (c = c2 → board r c ≠ board r2 c2) ∧
     (r - r % 3 = r2 - r2 % 3 → c - c % 3 = c2 - c2 % 3 → board r c ≠ board r2 c2))

/-- The shuffle oracle only permutes its input, which is all
`random.shuffle` guarantees. -/
def permShuffle (shuffle : Nat → List Nat → List Nat) : Prop :=
  ∀ k l, (shuffle k l).Perm l

/-- The intermediate grid states of a run of `solve_board` on `board`:
`board` itself, and (recursively) every state reached after placing a safe
candidate digit in the first empty cell.  Undoing a placement returns to a
state already in this set, so this relation covers every grid state the
search passes through, for every shuffle order. -/
inductive Reach : Board → Board → Prop
  | refl (board : Board) : Reach board board
  | place (board : Board) (r c n : Nat) (board2 : Board) :
      find_empty board = some (r, c) → n ∈ List.range' 1 9 → is_safe board r c n = true →
      Reach (setCell board r c n) board2 → Reach board board2

/-- Board literal built from a list of rows, for concrete test grids. -/
def boardOfLists (l : List (List Nat)) : Board :=
  fun r c => (l.getD r []).getD c 0

instance (board : Board) : Decidable (noZeros board) :=
  inferInstanceAs (Decidable (∀ r < 9, ∀ c < 9, board r c ≠ 0))

instance (board : Board) : Decidable (inRange board) :=
  inferInstanceAs (Decidable (∀ r < 9, ∀ c < 9, board r c ≤ 9))

instance (g s : Board) : Decidable (subBoard g s) :=
  inferInstanceAs (Decidable (∀ r < 9, ∀ c < 9, g r c = s r c ∨ g r c = 0))

instance (board : Board) : Decidable (rowsOK board) :=
  inferInstanceAs (Decidable (∀ r < 9, ∀ d < 10, 1 ≤ d →
    ((Finset.range 9).filter (fun c => board r c = d)).card = 1))

instance (board : Board) : Decidable (colsOK board) :=
  inferInstanceAs (Decidable (∀ c < 9, ∀ d < 10, 1 ≤ d →
    ((Finset.range 9).filter (fun r => board r c = d)).card = 1))

instance (board : Board) : Decidable (boxesOK board) :=
  inferInstanceAs (Decidable (∀ br < 3, ∀ bc < 3, ∀ d < 10, 1 ≤ d →
    ((Finset.range 9).filter (fun i => board (3 * br + i / 3) (3 * bc + i % 3) = d)).card = 1))

instance (board : Board) : Decidable (solvedBoard board) :=
  inferInstanceAs (Decidable (_ ∧ _ ∧ _ ∧ _))

set_option synthInstance.maxSize 2000 in
instance (board : Board) : Decidable (validPartial board) :=
  inferInstanceAs (Decidable (∀ r < 9, ∀ c < 9, ∀ r2 < 9, ∀ c2 < 9,
    ¬(r = r2 ∧ c = c2) → board r c ≠ 0 →
    ((r = r2 → board r c ≠ board r2 c2) ∧
     (c = c2 → board r c ≠ board r2 c2) ∧
     (r - r % 3 = r2 - r2 % 3 → c - c % 3 = c2 - c2 % 3 → board r c ≠ board r2 c2))))

/-! ## Basic lemmas about cells and scans -/

theorem setCell_self (b : Board) (r c n : Nat) : setCell b r c n r c = n := by
  simp [setCell]

theorem setCell_of_ne (b : Board) (row col n r c : Nat) (h : ¬(r = row ∧ c = col)) :
    setCell b row col n r c = b r c := by
  simp only [setCell, if_neg h]

theorem setCell_cancel (b : Board) (r c n : Nat) (h : b r c = 0) :
    setCell (setCell b r c n) r c 0 = b := by
  funext r' c'
  unfold setCell
  by_cases h' : r' = r ∧ c' = c
  · obtain ⟨rfl, rfl⟩ := h'
    simp [h]
  · simp [h']

theorem is_safe_true_iff (b : Board) (row col num : Nat) :
    is_safe b row col num = true ↔
      ((∀ i < 9, b row i ≠ num ∧ b i col ≠ num) ∧
       ∀ dr < 3, ∀ dc < 3, b (row - row % 3 + dr) (col - col % 3 + dc) ≠ num) := by
  have h1 : ((List.range 9).any fun i => b row i == num || b i col == num) = true ↔
      ∃ i < 9, b row i = num ∨ b i col = num := by
    simp [List.any_eq_true, List.mem_range]
  have h2 : ((List.range 3).any fun dr => (List.range 3).any fun dc =>
      b (row - row % 3 + dr) (col - col % 3 + dc) == num) = true ↔
      ∃ dr < 3, ∃ dc < 3, b (row - row % 3 + dr) (col - col % 3 + dc) = num := by
    simp [List.any_eq_true, List.mem_range]
  unfold is_safe
  cases hA : (List.range 9).any fun i => b row i == num || b i col == num with
  | true =>
    simp only [hA, if_true, Bool.false_eq_true, false_iff, not_and]
    intro hrow
    obtain ⟨i, hi, h'⟩ := h1.mp hA
    rcases h' with h' | h'
    · exact absurd h' (hrow i hi).1
    · exact absurd h' (hrow i hi).2
  | false =>
    have hA' : ¬∃ i < 9, b row i = num ∨ b i col = num := fun h => by
      rw [h1.mpr h] at hA; cases hA
    cases hB : (List.range 3).any fun dr => (List.range 3).any fun dc =>
        b (row - row % 3 + dr) (col - col % 3 + dc) == num with
    | true =>
      simp only [hA, hB, Bool.false_eq_true, if_false, if_true, false_iff, not_and]
      intro _
      obtain ⟨dr, hdr, dc, hdc, h'⟩ := h2.mp hB
      exact fun hbox => absurd h' (hbox dr hdr dc hdc)
    | false =>
      have hB' : ¬∃ dr < 3, ∃ dc < 3, b (row - row % 3 + dr) (col - col % 3 + dc) = num :=
        fun h => by rw [h2.mpr h] at hB; cases hB
      simp only [hA, hB, Bool.false_eq_true, if_false, true_iff]
      refine ⟨fun i hi => ⟨fun h' => hA' ⟨i, hi, Or.inl h'⟩, fun h' => hA' ⟨i, hi, Or.inr h'⟩⟩,
        fun dr hdr dc hdc h' => hB' ⟨dr, hdr, dc, hdc, h'⟩⟩

theorem is_safe_zero_false (b : Board) (row col : Nat) (hc : col < 9)
    (h : b row col = 0) : is_safe b row col 0 = false := by
  rw [← Bool.not_eq_true, is_safe_true_iff]
  rintro ⟨hrow, -⟩
  exact (hrow col hc).1 h

theorem find_empty_none_iff (b : Board) : find_empty b = none ↔ noZeros b := by
  unfold find_empty noZeros
  rw [List.findSome?_eq_none_iff]
  simp [Option.map_eq_none', List.find?_eq_none, List.mem_range]

theorem find_empty_some (b : Board) (r c : Nat) (h : find_empty b = some (r, c)) :
    r < 9 ∧ c < 9 ∧ b r c = 0 := by
  unfold find_empty at h
  obtain ⟨a, ha, hfa⟩ := List.exists_of_findSome?_eq_some h
  rw [List.mem_range] at ha
  cases hfind : (List.range 9).find? (fun c => b a c == 0) with
  | none => rw [hfind] at hfa; simp at hfa
  | some c0 =>
    rw [hfind] at hfa
    simp only [Option.map_some', Option.some_inj, Prod.mk.injEq] at hfa
    obtain ⟨rfl, rfl⟩ := hfa
    have h1 := List.find?_some hfind
    have h2 := List.mem_of_find?_eq_some hfind
    rw [List.mem_range] at h2
    rw [beq_iff_eq] at h1
    exact ⟨ha, h2, h1⟩

/-! ## Lemmas about the zero-cell count -/

theorem zeros_pos (b : Board) (r c : Nat) (hr : r < 9) (hc : c < 9) (h : b r c = 0) :
    0 < zeros b := by
  apply Finset.card_pos.mpr
  exact ⟨(r, c), by simp [Finset.mem_filter, Finset.mem_product, Finset.mem_range, hr, hc, h]⟩

theorem zeros_place (b : Board) (r c n : Nat) (hr : r < 9) (hc : c < 9)
    (hb : b r c = 0) (hn : n ≠ 0) : zeros (setCell b r c n) + 1 = zeros b := by
  unfold zeros
  have hset : (((Finset.range 9) ×ˢ (Finset.range 9)).filter
        (fun p => setCell b r c n p.1 p.2 = 0))
      = (((Finset.range 9) ×ˢ (Finset.range 9)).filter (fun p => b p.1 p.2 = 0)).erase (r, c) := by
    ext ⟨x, y⟩
    simp only [Finset.mem_filter, Finset.mem_erase, Finset.mem_product, Finset.mem_range,
      setCell, Prod.mk.injEq, ne_eq]
    constructor
    · rintro ⟨⟨hx, hy⟩, hz⟩
      by_cases hxy : x = r ∧ y = c
      · rw [if_pos hxy] at hz; exact absurd hz hn
      · rw [if_neg hxy] at hz
        exact ⟨fun he => hxy he, ⟨hx, hy⟩, hz⟩
    · rintro ⟨hne, ⟨hx, hy⟩, hz⟩
      have hxy : ¬(x = r ∧ y = c) := fun he => hne he
      rw [if_neg hxy]
      exact ⟨⟨hx, hy⟩, hz⟩
  rw [hset]
  exact Finset.card_erase_add_one
    (by simp [Finset.mem_filter, Finset.mem_product, Finset.mem_range, hr, hc, hb])

theorem zeros_clear (b : Board) (r c : Nat) (hr : r < 9) (hc : c < 9) (hb : b r c ≠ 0) :
    zeros (setCell b r c 0) = zeros b + 1 := by
  unfold zeros
  have hset : (((Finset.range 9) ×ˢ (Finset.range 9)).filter
        (fun p => setCell b r c 0 p.1 p.2 = 0))
      = insert (r, c) (((Finset.range 9) ×ˢ (Finset.range 9)).filter (fun p => b p.1 p.2 = 0)) := by
    ext ⟨x, y⟩
    simp only [Finset.mem_filter, Finset.mem_insert, Finset.mem_product, Finset.mem_range,
      setCell, Prod.mk.injEq]
    constructor
    · rintro ⟨⟨hx, hy⟩, hz⟩
      by_cases hxy : x = r ∧ y = c
      · exact Or.inl ⟨hxy.1, hxy.2⟩
      · rw [if_neg hxy] at hz
        exact Or.inr ⟨⟨hx, hy⟩, hz⟩
    · rintro (⟨rfl, rfl⟩ | ⟨⟨hx, hy⟩, hz⟩)
      · exact ⟨⟨hr, hc⟩, by simp⟩
      · by_cases hxy : x = r ∧ y = c
        · obtain ⟨rfl, rfl⟩ := hxy
          exact absurd hz hb
        · rw [if_neg hxy]
          exact ⟨⟨hx, hy⟩, hz⟩
  rw [hset]
  apply Finset.card_insert_of_not_mem
  simp [Finset.mem_filter, hb]

theorem zeros_eq_zero (b : Board) (h : noZeros b) : zeros b = 0 := by
  unfold zeros
  rw [Finset.card_eq_zero]
  ext ⟨x, y⟩
  simp only [Finset.mem_filter, Finset.mem_product, Finset.mem_range, Finset.not_mem_empty,
    iff_false, not_and]
  rintro ⟨hx, hy⟩
  exact h x hx y hy

theorem nonzeroCount_add_zeros (b : Board) : nonzeroCount b + zeros b = 81 := by
  unfold nonzeroCount zeros
  have h : ((((Finset.range 9) ×ˢ (Finset.range 9)).filter (fun p => b p.1 p.2 = 0)).card +
      (((Finset.range 9) ×ˢ (Finset.range 9)).filter (fun p => ¬b p.1 p.2 = 0)).card) =
      (((Finset.range 9) ×ˢ (Finset.range 9)) : Finset (Nat × Nat)).card :=
    Finset.filter_card_add_filter_neg_card_eq_card _
  simp only [Finset.card_product, Finset.card_range] at h
  simp only [ne_eq]
  omega

/-! ## The failed search restores the board -/

theorem tryNums_restore (shuffle : Nat → List Nat → List Nat) (fuel : Nat)
    (hS : ∀ b k, (solveFuel shuffle fuel b k).1 = false → (solveFuel shuffle fuel b k).2.1 = b) :
    ∀ nums b r c k, b r c = 0 →
      (tryNums (solveFuel shuffle fuel) b r c nums k).1 = false →
      (tryNums (solveFuel shuffle fuel) b r c nums k).2.1 = b := by
  intro nums
  induction nums with
  | nil =>
    intro b r c k h0 hf
    simp [tryNums]
  | cons n rest ih =>
    intro b r c k h0 hf
    by_cases hs : is_safe b r c n = true
    · rcases hres : solveFuel shuffle fuel (setCell b r c n) k with ⟨ok, b2, k2⟩
      cases ok with
      | false =>
        have hb2 : b2 = setCell b r c n := by
          have hx := hS (setCell b r c n) k
          rw [hres] at hx
          exact hx rfl
        have hcont : tryNums (solveFuel shuffle fuel) b r c (n :: rest) k
            = tryNums (solveFuel shuffle fuel) (setCell b2 r c 0) r c rest k2 := by
          simp [tryNums, hs, hres]
        have hset : setCell b2 r c 0 = b := by
          rw [hb2]; exact setCell_cancel b r c n h0
        rw [hcont, hset] at hf ⊢
        exact ih b r c k2 h0 hf
      | true =>
        have hT : (tryNums (solveFuel shuffle fuel) b r c (n :: rest) k).1 = true := by
          simp [tryNums, hs, hres]
        rw [hT] at hf
        cases hf
    · have hcont : tryNums (solveFuel shuffle fuel) b r c (n :: rest) k
          = tryNums (solveFuel shuffle fuel) b r c rest k := by
        simp [tryNums, hs]
      rw [hcont] at hf ⊢
      exact ih b r c k h0 hf

theorem solveFuel_restore (shuffle : Nat → List Nat → List Nat) :
    ∀ fuel b k, (solveFuel shuffle fuel b k).1 = false →
      (solveFuel shuffle fuel b k).2.1 = b := by
  intro fuel
  induction fuel with
  | zero =>
    intro b k _
    simp [solveFuel]
  | succ fuel ih =>
    intro b k hf
    cases hfe : find_empty b with
    | none =>
      have hT : solveFuel shuffle (fuel + 1) b k = (true, b, k) := by
        simp [solveFuel, hfe]
      rw [hT] at hf
      cases hf
    | some rc =>
      obtain ⟨r, c⟩ := rc
      have heq : solveFuel shuffle (fuel + 1) b k
          = tryNums (solveFuel shuffle fuel) b r c (shuffle k (List.range' 1 9)) (k + 1) := by
        simp [solveFuel, hfe]
      rw [heq] at hf ⊢
      exact tryNums_restore shuffle fuel ih _ b r c (k + 1) (find_empty_some b r c hfe).2.2 hf

/-! ## Counting nine distinct in-range values -/

theorem nine_distinct_counts (f : Nat → Nat)
    (h0 : ∀ i < 9, f i ≠ 0) (h9 : ∀ i < 9, f i ≤ 9)
    (hinj : ∀ i < 9, ∀ j < 9, i ≠ j → f i ≠ f j) :
    ∀ d < 10, 1 ≤ d → ((Finset.range 9).filter (fun i => f i = d)).card = 1 := by
  intro d hd10 hd1
  have hinjOn : Set.InjOn f (Finset.range 9 : Finset Nat) := by
    intro i hi j hj hij
    by_contra hne
    exact hinj i (Finset.mem_range.mp (Finset.mem_coe.mp hi))
      j (Finset.mem_range.mp (Finset.mem_coe.mp hj)) hne hij
  have himg : (Finset.range 9).image f ⊆ Finset.Icc 1 9 := by
    intro x hx
    obtain ⟨i, hi, rfl⟩ := Finset.mem_image.mp hx
    have hi9 := Finset.mem_range.mp hi
    exact Finset.mem_Icc.mpr ⟨Nat.one_le_iff_ne_zero.mpr (h0 i hi9), h9 i hi9⟩
  have hcard : ((Finset.range 9).image f).card = 9 := by
    rw [Finset.card_image_of_injOn hinjOn, Finset.card_range]
  have himg' : (Finset.range 9).image f = Finset.Icc 1 9 := by
    apply Finset.eq_of_subset_of_card_le himg
    rw [hcard, Nat.card_Icc]
  have hd : d ∈ (Finset.range 9).image f := by
    rw [himg']
    exact Finset.mem_Icc.mpr ⟨hd1, by omega⟩
  obtain ⟨i0, hi0, hfi0⟩ := Finset.mem_image.mp hd
  rw [Finset.card_eq_one]
  refine ⟨i0, ?_⟩
  ext j
  simp only [Finset.mem_filter, Finset.mem_singleton]
  constructor
  · rintro ⟨hj, hfj⟩
    by_contra hne
    exact hinj j (Finset.mem_range.mp hj) i0 (Finset.mem_range.mp hi0) hne (by rw [hfj, hfi0])
  · rintro rfl
    exact ⟨hi0, hfi0⟩

theorem counts_to_distinct (f : Nat → Nat)
    (h : ∀ d < 10, 1 ≤ d → ((Finset.range 9).filter (fun i => f i = d)).card = 1) :
    (∀ i < 9, 1 ≤ f i ∧ f i ≤ 9) ∧ (∀ i < 9, ∀ j < 9, i ≠ j → f i ≠ f j) := by
  have hrange : ∀ i < 9, 1 ≤ f i ∧ f i ≤ 9 := by
    have hdisj : ∀ d1 ∈ Finset.Icc 1 9, ∀ d2 ∈ Finset.Icc 1 9, d1 ≠ d2 →
        Disjoint ((Finset.range 9).filter (fun i => f i = d1))
          ((Finset.range 9).filter (fun i => f i = d2)) := by
      intro d1 _ d2 _ hne
      rw [Finset.disjoint_left]
      intro a ha1 ha2
      rw [Finset.mem_filter] at ha1 ha2
      have e1 := ha1.2
      have e2 := ha2.2
      omega
    have hcardU : ((Finset.Icc 1 9).biUnion
        (fun d => (Finset.range 9).filter (fun i => f i = d))).card = 9 := by
      rw [Finset.card_biUnion hdisj]
      have hone : ∀ d ∈ Finset.Icc 1 9, ((Finset.range 9).filter (fun i => f i = d)).card = 1 := by
        intro d hd
        have hdm := Finset.mem_Icc.mp hd
        exact h d (by omega) hdm.1
      rw [Finset.sum_congr rfl hone]
      simp [Nat.card_Icc]
    have hsub : (Finset.Icc 1 9).biUnion (fun d => (Finset.range 9).filter (fun i => f i = d))
        ⊆ Finset.range 9 := by
      intro a ha
      obtain ⟨d, _, hd⟩ := Finset.mem_biUnion.mp ha
      exact (Finset.mem_filter.mp hd).1
    have hequ : (Finset.Icc 1 9).biUnion (fun d => (Finset.range 9).filter (fun i => f i = d))
        = Finset.range 9 :=
      Finset.eq_of_subset_of_card_le hsub (by rw [hcardU, Finset.card_range])
    intro i hi
    have hmem : i ∈ (Finset.Icc 1 9).biUnion
        (fun d => (Finset.range 9).filter (fun i => f i = d)) := by
      rw [hequ]; exact Finset.mem_range.mpr hi
    obtain ⟨d, hd, hm⟩ := Finset.mem_biUnion.mp hmem
    have hdm := Finset.mem_Icc.mp hd
    have hfa := (Finset.mem_filter.mp hm).2
    omega
  refine ⟨hrange, ?_⟩
  intro i hi j hj hne hfe
  have hd1 : 1 ≤ f i := (hrange i hi).1
  have hd9 : f i ≤ 9 := (hrange i hi).2
  have hcard := h (f i) (by omega) hd1
  have hij : i ∈ (Finset.range 9).filter (fun a => f a = f i) := by
    simp [Finset.mem_filter, Finset.mem_range, hi]
  have hjj : j ∈ (Finset.range 9).filter (fun a => f a = f i) := by
    simp [Finset.mem_filter, Finset.mem_range, hj, hfe]
  rw [Finset.card_eq_one] at hcard
  obtain ⟨x, hx⟩ := hcard
  rw [hx, Finset.mem_singleton] at hij hjj
  exact hne (hij.trans hjj.symm)

/-! ## Relating `solvedBoard` and `validPartial` -/

theorem solvedBoard_cell_range (b : Board) (hs : solvedBoard b) :
    ∀ r < 9, ∀ c < 9, 1 ≤ b r c ∧ b r c ≤ 9 := by
  intro r hr c hc
  exact (counts_to_distinct (b r) (hs.2.1 r hr)).1 c hc

theorem solvedBoard_validPartial (b : Board) (hs : solvedBoard b) : validPartial b := by
  intro r hr c hc r2 hr2 c2 hc2 hne _
  refine ⟨?_, ?_, ?_⟩
  · rintro rfl
    have hcc : c ≠ c2 := fun h => hne ⟨rfl, h⟩
    exact (counts_to_distinct (b r) (hs.2.1 r hr)).2 c hc c2 hc2 hcc
  · rintro rfl
    have hrr : r ≠ r2 := fun h => hne ⟨h, rfl⟩
    exact (counts_to_distinct (fun x => b x c) (hs.2.2.1 c hc)).2 r hr r2 hr2 hrr
  · intro hbr hbc
    have hbox := hs.2.2.2 ((r - r % 3) / 3) (by omega) ((c - c % 3) / 3) (by omega)
    have hcd := counts_to_distinct
      (fun i => b (3 * ((r - r % 3) / 3) + i / 3) (3 * ((c - c % 3) / 3) + i % 3)) hbox
    have hicell : 3 * ((r - r % 3) / 3) + (3 * (r % 3) + c % 3) / 3 = r := by omega
    have hicell2 : 3 * ((c - c % 3) / 3) + (3 * (r % 3) + c % 3) % 3 = c := by omega
    have hjcell : 3 * ((r - r % 3) / 3) + (3 * (r2 % 3) + c2 % 3) / 3 = r2 := by omega
    have hjcell2 : 3 * ((c - c % 3) / 3) + (3 * (r2 % 3) + c2 % 3) % 3 = c2 := by omega
    have hij : 3 * (r % 3) + c % 3 ≠ 3 * (r2 % 3) + c2 % 3 := by
      intro he
      apply hne
      constructor <;> omega
    have hres : b (3 * ((r - r % 3) / 3) + (3 * (r % 3) + c % 3) / 3)
        (3 * ((c - c % 3) / 3) + (3 * (r % 3) + c % 3) % 3)
        ≠ b (3 * ((r - r % 3) / 3) + (3 * (r2 % 3) + c2 % 3) / 3)
        (3 * ((c - c % 3) / 3) + (3 * (r2 % 3) + c2 % 3) % 3) :=
      hcd.2 (3 * (r % 3) + c % 3) (by omega) (3 * (r2 % 3) + c2 % 3) (by omega) hij
    rw [hicell, hicell2, hjcell, hjcell2] at hres
    exact hres

theorem solvedBoard_inRange (b : Board) (hs : solvedBoard b) : inRange b := by
  intro r hr c hc
  exact (solvedBoard_cell_range b hs r hr c hc).2

theorem solvedBoard_of_parts (b : Board) (h0 : noZeros b) (h9 : inRange b)
    (hv : validPartial b) : solvedBoard b := by
  refine ⟨h0, ?_, ?_, ?_⟩
  · intro r hr
    apply nine_distinct_counts (b r) (fun c hc => h0 r hr c hc) (fun c hc => h9 r hr c hc)
    intro i hi j hj hij
    exact (hv r hr i hi r hr j hj (fun h => hij h.2) (h0 r hr i hi)).1 rfl
  · intro c hc
    apply nine_distinct_counts (fun x => b x c) (fun r hr => h0 r hr c hc)
      (fun r hr => h9 r hr c hc)
    intro i hi j hj hij
    exact (hv i hi c hc j hj c hc (fun h => hij h.1) (h0 i hi c hc)).2.1 rfl
  · intro br hbr bc hbc
    apply nine_distinct_counts
    · intro i hi
      exact h0 (3 * br + i / 3) (by omega) (3 * bc + i % 3) (by omega)
    · intro i hi
      exact h9 (3 * br + i / 3) (by omega) (3 * bc + i % 3) (by omega)
    · intro i hi j hj hij
      have hcells : ¬(3 * br + i / 3 = 3 * br + j / 3 ∧ 3 * bc + i % 3 = 3 * bc + j % 3) := by
        intro he
        apply hij
        omega
      have hv' := hv (3 * br + i / 3) (by omega) (3 * bc + i % 3) (by omega)
        (3 * br + j / 3) (by omega) (3 * bc + j % 3) (by omega) hcells
        (h0 (3 * br + i / 3) (by omega) (3 * bc + i % 3) (by omega))
      exact hv'.2.2 (by omega) (by omega)

/-! ## Derived boards -/

theorem subBoard_validPartial (g s : Board) (hsub : subBoard g s) (hv : validPartial s) :
    validPartial g := by
  intro r hr c hc r2 hr2 c2 hc2 hne hnz
  have hg : g r c = s r c := by
    rcases hsub r hr c hc with h | h
    · exact h
    · exact absurd h hnz
  have hs0 : s r c ≠ 0 := by rw [← hg]; exact hnz
  have hv' := hv r hr c hc r2 hr2 c2 hc2 hne hs0
  rcases hsub r2 hr2 c2 hc2 with h2 | h2
  · exact ⟨fun he => by rw [hg, h2]; exact hv'.1 he,
      fun he => by rw [hg, h2]; exact hv'.2.1 he,
      fun he1 he2 => by rw [hg, h2]; exact hv'.2.2 he1 he2⟩
  · exact ⟨fun _ => by rw [h2]; exact hnz, fun _ => by rw [h2]; exact hnz,
      fun _ _ => by rw [h2]; exact hnz⟩

theorem subBoard_inRange (g s : Board) (hsub : subBoard g s) (h9 : inRange s) : inRange g := by
  intro r hr c hc
  rcases hsub r hr c hc with h | h
  · rw [h]; exact h9 r hr c hc
  · rw [h]; omega

theorem is_safe_sub (g s : Board) (hs : solvedBoard s) (hsub : subBoard g s)
    (r c : Nat) (hr : r < 9) (hc : c < 9) (h0 : g r c = 0) :
    is_safe g r c (s r c) = true := by
  have hv := solvedBoard_validPartial s hs
  have hnz : s r c ≠ 0 := hs.1 r hr c hc
  rw [is_safe_true_iff]
  refine ⟨fun i hi => ⟨?_, ?_⟩, ?_⟩
  · intro he
    have hic : i ≠ c := by
      rintro rfl
      rw [h0] at he
      exact hnz he.symm
    have hgi : g r i ≠ 0 := by rw [he]; exact hnz
    have hgi' : g r i = s r i := by
      rcases hsub r hr i hi with h | h
      · exact h
      · exact absurd h hgi
    have hsi : s r i ≠ 0 := by rw [← hgi']; exact hgi
    have heq : s r i = s r c := by rw [← hgi']; exact he
    exact (hv r hr i hi r hr c hc (fun h => hic h.2) hsi).1 rfl heq
  · intro he
    have hic : i ≠ r := by
      rintro rfl
      rw [h0] at he
      exact hnz he.symm
    have hgi : g i c ≠ 0 := by rw [he]; exact hnz
    have hgi' : g i c = s i c := by
      rcases hsub i hi c hc with h | h
      · exact h
      · exact absurd h hgi
    have hsi : s i c ≠ 0 := by rw [← hgi']; exact hgi
    have heq : s i c = s r c := by rw [← hgi']; exact he
    exact (hv i hi c hc r hr c hc (fun h => hic h.1) hsi).2.1 rfl heq
  · intro dr hdr dc hdc he
    by_cases hsame : r - r % 3 + dr = r ∧ c - c % 3 + dc = c
    · rw [hsame.1, hsame.2, h0] at he
      exact hnz he.symm
    · have hR : r - r % 3 + dr < 9 := by omega
      have hC : c - c % 3 + dc < 9 := by omega
      have hgi : g (r - r % 3 + dr) (c - c % 3 + dc) ≠ 0 := by rw [he]; exact hnz
      have hgi' : g (r - r % 3 + dr) (c - c % 3 + dc) = s (r - r % 3 + dr) (c - c % 3 + dc) := by
        rcases hsub (r - r % 3 + dr) hR (c - c % 3 + dc) hC with h | h
        · exact h
        · exact absurd h hgi
      have hsi : s (r - r % 3 + dr) (c - c % 3 + dc) ≠ 0 := by rw [← hgi']; exact hgi
      have heq : s (r - r % 3 + dr) (c - c % 3 + dc) = s r c := by rw [← hgi']; exact he
      exact (hv (r - r % 3 + dr) hR (c - c % 3 + dc) hC r hr c hc hsame hsi).2.2
        (by omega) (by omega) heq

/-! ## Placement preserves the invariants -/

theorem validPartial_place (b : Board) (r c n : Nat) (hr : r < 9) (hc : c < 9)
    (hv : validPartial b) (hsafe : is_safe b r c n = true) :
    validPartial (setCell b r c n) := by
  rw [is_safe_true_iff] at hsafe
  obtain ⟨hline, hbox⟩ := hsafe
  intro x hx y hy x2 hx2 y2 hy2 hne hnz
  by_cases hp : x = r ∧ y = c
  · obtain ⟨rfl, rfl⟩ := hp
    rw [setCell_self] at hnz ⊢
    have hq : ¬(x2 = x ∧ y2 = y) := fun h => hne ⟨h.1.symm, h.2.symm⟩
    rw [setCell_of_ne b x y n x2 y2 hq]
    refine ⟨?_, ?_, ?_⟩
    · rintro rfl
      exact fun he => (hline y2 hy2).1 he.symm
    · rintro rfl
      exact fun he => (hline x2 hx2).2 he.symm
    · intro he1 he2 he
      have hx2e : x - x % 3 + x2 % 3 = x2 := by omega
      have hy2e : y - y % 3 + y2 % 3 = y2 := by omega
      have hb := hbox (x2 % 3) (by omega) (y2 % 3) (by omega)
      rw [hx2e, hy2e] at hb
      exact hb he.symm
  · rw [setCell_of_ne b r c n x y hp] at hnz ⊢
    by_cases hq : x2 = r ∧ y2 = c
    · obtain ⟨rfl, rfl⟩ := hq
      rw [setCell_self]
      refine ⟨?_, ?_, ?_⟩
      · rintro rfl
        exact fun he => (hline y hy).1 he
      · rintro rfl
        exact fun he => (hline x hx).2 he
      · intro he1 he2 he
        have hxe : x2 - x2 % 3 + x % 3 = x := by omega
        have hye : y2 - y2 % 3 + y % 3 = y := by omega
        have hb := hbox (x % 3) (by omega) (y % 3) (by omega)
        rw [hxe, hye] at hb
        exact hb he
    · rw [setCell_of_ne b r c n x2 y2 hq]
      exact hv x hx y hy x2 hx2 y2 hy2 hne hnz

theorem validPartial_clear (b : Board) (r c : Nat) (hv : validPartial b) :
    validPartial (setCell b r c 0) := by
  intro x hx y hy x2 hx2 y2 hy2 hne hnz
  by_cases hp : x = r ∧ y = c
  · obtain ⟨rfl, rfl⟩ := hp
    rw [setCell_self] at hnz
    exact absurd rfl hnz
  · rw [setCell_of_ne b r c 0 x y hp] at hnz ⊢
    by_cases hq : x2 = r ∧ y2 = c
    · obtain ⟨rfl, rfl⟩ := hq
      rw [setCell_self]
      exact ⟨fun _ => hnz, fun _ => hnz, fun _ _ => hnz⟩
    · rw [setCell_of_ne b r c 0 x2 y2 hq]
      exact hv x hx y hy x2 hx2 y2 hy2 hne hnz

theorem inRange_place (b : Board) (r c n : Nat) (hn : n ≤ 9) (hi : inRange b) :
    inRange (setCell b r c n) := by
  intro x hx y hy
  by_cases hp : x = r ∧ y = c
  · obtain ⟨rfl, rfl⟩ := hp
    rw [setCell_self]; exact hn
  · rw [setCell_of_ne b r c n x y hp]
    exact hi x hx y hy

theorem subBoard_place_sol (b s : Board) (hsub : subBoard b s) (r c : Nat) :
    subBoard (setCell b r c (s r c)) s := by
  intro x hx y hy
  by_cases hp : x = r ∧ y = c
  · obtain ⟨rfl, rfl⟩ := hp
    rw [setCell_self]
    exact Or.inl rfl
  · rw [setCell_of_ne b r c _ x y hp]
    exact hsub x hx y hy

/-! ## The search preserves the invariants -/

theorem tryNums_preserves (shuffle : Nat → List Nat → List Nat) (fuel : Nat)
    (hS : ∀ b k, validPartial b → inRange b →
      validPartial (solveFuel shuffle fuel b k).2.1 ∧ inRange (solveFuel shuffle fuel b k).2.1) :
    ∀ nums b r c k, (∀ n ∈ nums, n ≤ 9) → r < 9 → c < 9 → validPartial b → inRange b →
      validPartial (tryNums (solveFuel shuffle fuel) b r c nums k).2.1 ∧
      inRange (tryNums (solveFuel shuffle fuel) b r c nums k).2.1 := by
  intro nums
  induction nums with
  | nil =>
    intro b r c k _ _ _ hv hi
    simpa [tryNums] using ⟨hv, hi⟩
  | cons n rest ih =>
    intro b r c k h9 hr hc hv hi
    by_cases hsafe : is_safe b r c n = true
    · have hv' := validPartial_place b r c n hr hc hv hsafe
      have hi' := inRange_place b r c n (h9 n (List.mem_cons_self n rest)) hi
      rcases hres : solveFuel shuffle fuel (setCell b r c n) k with ⟨ok, b2, k2⟩
      have hrec := hS (setCell b r c n) k hv' hi'
      rw [hres] at hrec
      cases ok with
      | true =>
        have hT : tryNums (solveFuel shuffle fuel) b r c (n :: rest) k = (true, b2, k2) := by
          simp [tryNums, hsafe, hres]
        rw [hT]
        exact hrec
      | false =>
        have hcont : tryNums (solveFuel shuffle fuel) b r c (n :: rest) k
            = tryNums (solveFuel shuffle fuel) (setCell b2 r c 0) r c rest k2 := by
          simp [tryNums, hsafe, hres]
        rw [hcont]
        exact ih (setCell b2 r c 0) r c k2 (fun m hm => h9 m (List.mem_cons_of_mem _ hm)) hr hc
          (validPartial_clear b2 r c hrec.1) (inRange_place b2 r c 0 (by omega) hrec.2)
    · have hcont : tryNums (solveFuel shuffle fuel) b r c (n :: rest) k
          = tryNums (solveFuel shuffle fuel) b r c rest k := by
        simp [tryNums, hsafe]
      rw [hcont]
      exact ih b r c k (fun m hm => h9 m (List.mem_cons_of_mem _ hm)) hr hc hv hi

theorem solveFuel_preserves (shuffle : Nat → List Nat → List Nat) (hsh : permShuffle shuffle) :
    ∀ fuel b k, validPartial b → inRange b →
      validPartial (solveFuel shuffle fuel b k).2.1 ∧ inRange (solveFuel shuffle fuel b k).2.1 := by
  intro fuel
  induction fuel with
  | zero =>
    intro b k hv hi
    simpa [solveFuel] using ⟨hv, hi⟩
  | succ fuel ih =>
    intro b k hv hi
    cases hfe : find_empty b with
    | none =>
      have hT : solveFuel shuffle (fuel + 1) b k = (true, b, k) := by
        simp [solveFuel, hfe]
      rw [hT]
      exact ⟨hv, hi⟩
    | some rc =>
      obtain ⟨r, c⟩ := rc
      obtain ⟨hr, hc, _⟩ := find_empty_some b r c hfe
      have heq : solveFuel shuffle (fuel + 1) b k
          = tryNums (solveFuel shuffle fuel) b r c (shuffle k (List.range' 1 9)) (k + 1) := by
        simp [solveFuel, hfe]
      rw [heq]
      apply tryNums_preserves shuffle fuel ih _ b r c (k + 1) ?_ hr hc hv hi
      intro n hn
      rw [(hsh k _).mem_iff, List.mem_range'_1] at hn
      omega

/-! ## A successful search fills the board -/

theorem tryNums_success_noZeros (shuffle : Nat → List Nat → List Nat) (fuel : Nat)
    (hS : ∀ b k, zeros b < fuel → (solveFuel shuffle fuel b k).1 = true →
      noZeros (solveFuel shuffle fuel b k).2.1) :
    ∀ nums b r c k, r < 9 → c < 9 → b r c = 0 → zeros b ≤ fuel →
      (tryNums (solveFuel shuffle fuel) b r c nums k).1 = true →
      noZeros (tryNums (solveFuel shuffle fuel) b r c nums k).2.1 := by
  intro nums
  induction nums with
  | nil =>
    intro b r c k _ _ _ _ hT
    rw [show (tryNums (solveFuel shuffle fuel) b r c [] k).1 = false from by simp [tryNums]] at hT
    cases hT
  | cons n rest ih =>
    intro b r c k hr hc h0 hz hT
    by_cases hsafe : is_safe b r c n = true
    · have hn0 : n ≠ 0 := by
        rintro rfl
        rw [is_safe_zero_false b r c hc h0] at hsafe
        cases hsafe
      have hzp : zeros (setCell b r c n) < fuel := by
        have hp := zeros_place b r c n hr hc h0 hn0
        have hpos := zeros_pos b r c hr hc h0
        omega
      rcases hres : solveFuel shuffle fuel (setCell b r c n) k with ⟨ok, b2, k2⟩
      cases ok with
      | true =>
        have hEq : tryNums (solveFuel shuffle fuel) b r c (n :: rest) k = (true, b2, k2) := by
          simp [tryNums, hsafe, hres]
        rw [hEq]
        have hrec := hS (setCell b r c n) k hzp
        rw [hres] at hrec
        exact hrec rfl
      | false =>
        have hb2 : b2 = setCell b r c n := by
          have hx := solveFuel_restore shuffle fuel (setCell b r c n) k
          rw [hres] at hx
          exact hx rfl
        have hcont : tryNums (solveFuel shuffle fuel) b r c (n :: rest) k
            = tryNums (solveFuel shuffle fuel) (setCell b2 r c 0) r c rest k2 := by
          simp [tryNums, hsafe, hres]
        rw [hcont, hb2, setCell_cancel b r c n h0] at hT ⊢
        exact ih b r c k2 hr hc h0 hz hT
    · have hcont : tryNums (solveFuel shuffle fuel) b r c (n :: rest) k
          = tryNums (solveFuel shuffle fuel) b r c rest k := by
        simp [tryNums, hsafe]
      rw [hcont] at hT ⊢
      exact ih b r c k hr hc h0 hz hT

theorem solveFuel_success_noZeros (shuffle : Nat → List Nat → List Nat) :
    ∀ fuel b k, zeros b < fuel → (solveFuel shuffle fuel b k).1 = true →
      noZeros (solveFuel shuffle fuel b k).2.1 := by
  intro fuel
  induction fuel with
  | zero =>
    intro b k hz _
    omega
  | succ fuel ih =>
    intro b k hz hT
    cases hfe : find_empty b with
    | none =>
      have hEq : solveFuel shuffle (fuel + 1) b k = (true, b, k) := by
        simp [solveFuel, hfe]
      rw [hEq]
      exact (find_empty_none_iff b).mp hfe
    | some rc =>
      obtain ⟨r, c⟩ := rc
      obtain ⟨hr, hc, h0⟩ := find_empty_some b r c hfe
      have heq : solveFuel shuffle (fuel + 1) b k
          = tryNums (solveFuel shuffle fuel) b r c (shuffle k (List.range' 1 9)) (k + 1) := by
        simp [solveFuel, hfe]
      rw [heq] at hT ⊢
      exact tryNums_success_noZeros shuffle fuel ih _ b r c (k + 1) hr hc h0 (by omega) hT

/-! ## Completeness: a board below a solved board is solved successfully -/

theorem tryNums_complete (shuffle : Nat → List Nat → List Nat)
    (s : Board) (hs : solvedBoard s) (fuel : Nat)
    (IH : ∀ b k, zeros b < fuel → subBoard b s → (solveFuel shuffle fuel b k).1 = true) :
    ∀ nums b r c k, r < 9 → c < 9 → b r c = 0 → subBoard b s → zeros b ≤ fuel →
      s r c ∈ nums → (tryNums (solveFuel shuffle fuel) b r c nums k).1 = true := by
  intro nums
  induction nums with
  | nil =>
    intro b r c k _ _ _ _ _ hmem
    cases hmem
  | cons n rest ih =>
    intro b r c k hr hc h0 hsub hz hmem
    by_cases hsafe : is_safe b r c n = true
    · rcases hres : solveFuel shuffle fuel (setCell b r c n) k with ⟨ok, b2, k2⟩
      cases ok with
      | true =>
        simp [tryNums, hsafe, hres]
      | false =>
        have hn : n ≠ s r c := by
          rintro rfl
          have hz' : zeros (setCell b r c (s r c)) < fuel := by
            have hp := zeros_place b r c (s r c) hr hc h0 (hs.1 r hr c hc)
            have hpos := zeros_pos b r c hr hc h0
            omega
          have hx := IH (setCell b r c (s r c)) k hz' (subBoard_place_sol b s hsub r c)
          rw [hres] at hx
          cases hx
        have hmem' : s r c ∈ rest := by
          rcases List.mem_cons.mp hmem with he | hm
          · exact absurd he.symm hn
          · exact hm
        have hb2 : b2 = setCell b r c n := by
          have hx := solveFuel_restore shuffle fuel (setCell b r c n) k
          rw [hres] at hx
          exact hx rfl
        have hcont : tryNums (solveFuel shuffle fuel) b r c (n :: rest) k
            = tryNums (solveFuel shuffle fuel) (setCell b2 r c 0) r c rest k2 := by
          simp [tryNums, hsafe, hres]
        rw [hcont, hb2, setCell_cancel b r c n h0]
        exact ih b r c k2 hr hc h0 hsub hz hmem'
    · have hn : n ≠ s r c := by
        rintro rfl
        exact hsafe (is_safe_sub b s hs hsub r c hr hc h0)
      have hmem' : s r c ∈ rest := by
        rcases List.mem_cons.mp hmem with he | hm
        · exact absurd he.symm hn
        · exact hm
      have hcont : tryNums (solveFuel shuffle fuel) b r c (n :: rest) k
          = tryNums (solveFuel shuffle fuel) b r c rest k := by
        simp [tryNums, hsafe]
      rw [hcont]
      exact ih b r c k hr hc h0 hsub hz hmem'

theorem solveFuel_complete (shuffle : Nat → List Nat → List Nat) (hsh : permShuffle shuffle)
    (s : Board) (hs : solvedBoard s) :
    ∀ fuel b k, zeros b < fuel → subBoard b s → (solveFuel shuffle fuel b k).1 = true := by
  intro fuel
  induction fuel with
  | zero =>
    intro b k hz _
    omega
  | succ fuel ihf =>
    intro b k hz hsub
    cases hfe : find_empty b with
    | none =>
      simp [solveFuel, hfe]
    | some rc =>
      obtain ⟨r, c⟩ := rc
      obtain ⟨hr, hc, h0⟩ := find_empty_some b r c hfe
      have heq : solveFuel shuffle (fuel + 1) b k
          = tryNums (solveFuel shuffle fuel) b r c (shuffle k (List.range' 1 9)) (k + 1) := by
        simp [solveFuel, hfe]
      rw [heq]
      apply tryNums_complete shuffle s hs fuel ihf _ b r c (k + 1) hr hc h0 hsub (by omega)
      rw [(hsh k _).mem_iff, List.mem_range'_1]
      have hcell := solvedBoard_cell_range s hs r hr c hc
      omega

/-! ## The search only visits boards reachable by safe placements -/

theorem tryNums_result_reach (shuffle : Nat → List Nat → List Nat) (fuel : Nat)
    (hS : ∀ b k, Reach b (solveFuel shuffle fuel b k).2.1) :
    ∀ nums b r c k, nums ⊆ List.range' 1 9 → find_empty b = some (r, c) →
      Reach b (tryNums (solveFuel shuffle fuel) b r c nums k).2.1 := by
  intro nums
  induction nums with
  | nil =>
    intro b r c k _ _
    have hEq : (tryNums (solveFuel shuffle fuel) b r c [] k).2.1 = b := by simp [tryNums]
    rw [hEq]
    exact Reach.refl b
  | cons n rest ih =>
    intro b r c k hsub hfe
    obtain ⟨hr, hc, h0⟩ := find_empty_some b r c hfe
    by_cases hsafe : is_safe b r c n = true
    · rcases hres : solveFuel shuffle fuel (setCell b r c n) k with ⟨ok, b2, k2⟩
      cases ok with
      | true =>
        have hEq : tryNums (solveFuel shuffle fuel) b r c (n :: rest) k = (true, b2, k2) := by
          simp [tryNums, hsafe, hres]
        rw [hEq]
        have hrec := hS (setCell b r c n) k
        rw [hres] at hrec
        exact Reach.place b r c n b2 hfe (hsub (List.mem_cons_self n rest)) hsafe hrec
      | false =>
        have hb2 : b2 = setCell b r c n := by
          have hx := solveFuel_restore shuffle fuel (setCell b r c n) k
          rw [hres] at hx
          exact hx rfl
        have hcont : tryNums (solveFuel shuffle fuel) b r c (n :: rest) k
            = tryNums (solveFuel shuffle fuel) (setCell b2 r c 0) r c rest k2 := by
          simp [tryNums, hsafe, hres]
        rw [hcont, hb2, setCell_cancel b r c n h0]
        exact ih b r c k2 (fun m hm => hsub (List.mem_cons_of_mem _ hm)) hfe
    · have hcont : tryNums (solveFuel shuffle fuel) b r c (n :: rest) k
          = tryNums (solveFuel shuffle fuel) b r c rest k := by
        simp [tryNums, hsafe]
      rw [hcont]
      exact ih b r c k (fun m hm => hsub (List.mem_cons_of_mem _ hm)) hfe

theorem solveFuel_result_reach (shuffle : Nat → List Nat → List Nat) (hsh : permShuffle shuffle) :
    ∀ fuel b k, Reach b (solveFuel shuffle fuel b k).2.1 := by
  intro fuel
  induction fuel with
  | zero =>
    intro b k
    have hEq : (solveFuel shuffle 0 b k).2.1 = b := by simp [solveFuel]
    rw [hEq]
    exact Reach.refl b
  | succ fuel ih =>
    intro b k
    cases hfe : find_empty b with
    | none =>
      have hEq : solveFuel shuffle (fuel + 1) b k = (true, b, k) := by simp [solveFuel, hfe]
      rw [hEq]
      exact Reach.refl b
    | some rc =>
      obtain ⟨r, c⟩ := rc
      have heq : solveFuel shuffle (fuel + 1) b k
          = tryNums (solveFuel shuffle fuel) b r c (shuffle k (List.range' 1 9)) (k + 1) := by
        simp [solveFuel, hfe]
      rw [heq]
      exact tryNums_result_reach shuffle fuel ih _ b r c (k + 1)
        (fun m hm => (hsh k _).subset hm) hfe

/-! ## The removal loop never writes the original board -/

theorem removeLoop_board_fst (shuffle : Nat → List Nat → List Nat) :
    ∀ cells board puzzle removals removed k,
      (removeLoop shuffle cells board puzzle removals removed k).1 = board := by
  intro cells
  induction cells with
  | nil =>
    intro board puzzle removals removed k
    simp [removeLoop]
  | cons p rest ih =>
    obtain ⟨r, c⟩ := p
    intro board puzzle removals removed k
    by_cases hge : removed ≥ removals
    · simp [removeLoop, hge]
    · cases hres : (solve_board shuffle (setCell puzzle r c 0) k).1 with
      | true => simp [removeLoop, hge, hres, ih]
      | false => simp [removeLoop, hge, hres, ih]

/-! ## The coordinate list -/

theorem allCells_nodup : allCells.Nodup := by decide

theorem allCells_length : allCells.length = 81 := by decide

theorem mem_allCells (p : Nat × Nat) : p ∈ allCells ↔ p.1 < 9 ∧ p.2 < 9 := by
  obtain ⟨p1, p2⟩ := p
  simp only [allCells, List.mem_flatMap, List.mem_map, List.mem_range]
  constructor
  · rintro ⟨r, hr, c, hc, he⟩
    injection he with he1 he2
    subst he1
    subst he2
    exact ⟨hr, hc⟩
  · rintro ⟨h1, h2⟩
    exact ⟨p1, h1, p2, h2, rfl⟩

/-! ## The removal loop with a solved source board -/

theorem removeLoop_spec (shuffle : Nat → List Nat → List Nat) (hsh : permShuffle shuffle)
    (s : Board) (hs : solvedBoard s) :
    ∀ cells board puzzle removals removed k,
      cells.Nodup →
      (∀ p ∈ cells, p.1 < 9 ∧ p.2 < 9 ∧ puzzle p.1 p.2 = s p.1 p.2) →
      subBoard puzzle s →
      zeros puzzle = removed →
      removed ≤ removals →
      removals ≤ removed + cells.length →
      zeros (removeLoop shuffle cells board puzzle removals removed k).2.1 = removals ∧
      subBoard (removeLoop shuffle cells board puzzle removals removed k).2.1 s := by
  intro cells
  induction cells with
  | nil =>
    intro board puzzle removals removed k _ _ hsub hz h1 h2
    rw [List.length_nil] at h2
    have hEq : removeLoop shuffle [] board puzzle removals removed k = (board, puzzle, k) := by
      simp [removeLoop]
    rw [hEq]
    exact ⟨by rw [hz]; omega, hsub⟩
  | cons p rest ih =>
    obtain ⟨r, c⟩ := p
    intro board puzzle removals removed k hnd hcells hsub hz h1 h2
    rw [List.length_cons] at h2
    by_cases hge : removed ≥ removals
    · have hEq : removeLoop shuffle ((r, c) :: rest) board puzzle removals removed k
          = (board, puzzle, k) := by
        simp [removeLoop, hge]
      rw [hEq]
      exact ⟨by rw [hz]; omega, hsub⟩
    · obtain ⟨hr, hc, hpv⟩ := hcells (r, c) (List.mem_cons_self _ _)
      have hpnz : puzzle r c ≠ 0 := by rw [hpv]; exact hs.1 r hr c hc
      have hsub2 : subBoard (setCell puzzle r c 0) s := by
        intro x hx y hy
        by_cases hxy : x = r ∧ y = c
        · obtain ⟨rfl, rfl⟩ := hxy
          rw [setCell_self]
          exact Or.inr rfl
        · rw [setCell_of_ne _ _ _ _ _ _ hxy]
          exact hsub x hx y hy
      have hsolve : (solve_board shuffle (setCell puzzle r c 0) k).1 = true :=
        solveFuel_complete shuffle hsh s hs _ _ k (by omega) hsub2
      have hcont : removeLoop shuffle ((r, c) :: rest) board puzzle removals removed k
          = removeLoop shuffle rest board (setCell puzzle r c 0) removals (removed + 1)
              (solve_board shuffle (setCell puzzle r c 0) k).2.2 := by
        simp [removeLoop, hge, hsolve]
      rw [hcont]
      apply ih
      · exact (List.nodup_cons.mp hnd).2
      · intro q hq
        obtain ⟨hq1, hq2, hq3⟩ := hcells q (List.mem_cons_of_mem _ hq)
        refine ⟨hq1, hq2, ?_⟩
        have hqne : ¬(q.1 = r ∧ q.2 = c) := by
          intro he
          have hqe : q = (r, c) := Prod.ext he.1 he.2
          rw [hqe] at hq
          exact (List.nodup_cons.mp hnd).1 hq
        rw [setCell_of_ne _ _ _ _ _ _ hqne]
        exact hq3
      · exact hsub2
      · rw [zeros_clear puzzle r c hr hc hpnz, hz]
      · omega
      · omega

/-! ## Claim theorems -/

/-- C1: for every grid `g` obtained from a valid fully solved 9x9 grid `s` by
setting an arbitrary subset of its cells to 0, and for every shuffle oracle
(any candidate ordering) `solve_board` returns true, and the resulting grid
is fully filled with every row, column, and 3x3 subgrid containing each digit
1-9 exactly once. -/
theorem solve_board_solves_derived_grids (shuffle : Nat → List Nat → List Nat)
    (hsh : permShuffle shuffle) (s g : Board) (hs : solvedBoard s) (hg : subBoard g s)
    (k : Nat) :
    (solve_board shuffle g k).1 = true ∧ solvedBoard (solve_board shuffle g k).2.1 := by
  have hT : (solveFuel shuffle (zeros g + 1) g k).1 = true :=
    solveFuel_complete shuffle hsh s hs (zeros g + 1) g k (by omega) hg
  have hNZ := solveFuel_success_noZeros shuffle (zeros g + 1) g k (by omega) hT
  have hPres := solveFuel_preserves shuffle hsh (zeros g + 1) g k
    (subBoard_validPartial g s hg (solvedBoard_validPartial s hs))
    (subBoard_inRange g s hg (solvedBoard_inRange s hs))
  exact ⟨hT, solvedBoard_of_parts _ hNZ hPres.2 hPres.1⟩

/-- C2: whenever `solve_board` returns false it leaves the grid exactly equal
to its state at the start of the call — every placement made during the
failed search is undone.  (`solve_board` is a total function of the grid, so
no exception can be raised on unsolvable input.) -/
theorem solve_board_failure_restores_grid (shuffle : Nat → List Nat → List Nat)
    (board : Board) (k : Nat) (h : (solve_board shuffle board k).1 = false) :
    (solve_board shuffle board k).2.1 = board :=
  solveFuel_restore shuffle (zeros board + 1) board k h

/-- C5: for every grid, row and column in [0,8] and digit in [1,9], `is_safe`
returns false exactly when the digit already appears in that row, in that
column, or in the 3x3 subgrid containing (row, col), and true otherwise.
(The embedding of `is_safe` is a pure function of the grid, so it cannot
modify it.) -/
theorem is_safe_false_iff_digit_present (board : Board) (row col num : Nat)
    (_hrow : row < 9) (_hcol : col < 9) (_h1 : 1 ≤ num) (_h9 : num ≤ 9) :
    is_safe board row col num = false ↔
      (∃ i < 9, board row i = num) ∨ (∃ i < 9, board i col = num) ∨
      (∃ dr < 3, ∃ dc < 3, board (row - row % 3 + dr) (col - col % 3 + dc) = num) := by
  rw [← Bool.not_eq_true, is_safe_true_iff]
  constructor
  · intro h
    by_contra hn
    push_neg at hn
    exact h ⟨fun i hi => ⟨hn.1 i hi, hn.2.1 i hi⟩, hn.2.2⟩
  · rintro (⟨i, hi, he⟩ | ⟨i, hi, he⟩ | ⟨dr, hdr, dc, hdc, he⟩) ⟨hline, hbox⟩
    · exact (hline i hi).1 he
    · exact (hline i hi).2 he
    · exact hbox dr hdr dc hdc he

/-- C6: if a grid's non-zero cells satisfy row/column/subgrid uniqueness,
then every intermediate grid state reachable by the search's
place/recurse/undo steps (the `Reach` relation: repeatedly place a safe
candidate digit 1-9 in the first empty cell; undoing returns to an earlier
such state) still satisfies row/column/subgrid uniqueness. -/
theorem reach_preserves_validPartial :
    ∀ b b2 : Board, validPartial b → Reach b b2 → validPartial b2 := by
  intro b b2 hv h
  induction h with
  | refl board => exact hv
  | place board r c n board2 hfe hmem hsafe hrec ih =>
    obtain ⟨hr, hc, _⟩ := find_empty_some board r c hfe
    exact ih (validPartial_place board r c n hr hc hv hsafe)

/-- C8: after `remove_cells` runs, the grid passed in as `full` is unchanged:
all removal mutations are applied to the copy `puzzle` only.  In the
embedding, the first component of the result is the final state of the
caller's `board` argument threaded through the removal loop. -/
theorem remove_cells_preserves_original (shuffle : Nat → List Nat → List Nat)
    (shuffleC : List (Nat × Nat) → List (Nat × Nat))
    (board : Board) (difficulty : String) (k : Nat) :
    (remove_cells shuffle shuffleC board difficulty k).1 = board :=
  removeLoop_board_fst shuffle (shuffleC allCells) board board (removalsFor difficulty) 0 k

/-- C9: any difficulty string other than "easy" and "medium" gets a removal
target of 55, so an unrecognized difficulty is treated exactly like "hard"
(no error is raised: `removalsFor` and `remove_cells` are total). -/
theorem unrecognized_difficulty_treated_as_hard (shuffle : Nat → List Nat → List Nat)
    (shuffleC : List (Nat × Nat) → List (Nat × Nat))
    (board : Board) (d : String) (k : Nat) (h1 : d ≠ "easy") (h2 : d ≠ "medium") :
    removalsFor d = 55 ∧
      remove_cells shuffle shuffleC board d k = remove_cells shuffle shuffleC board "hard" k := by
  have hrf : removalsFor d = 55 := by
    unfold removalsFor
    rw [if_neg h1, if_neg h2]
  have hhard : removalsFor "hard" = 55 := by decide
  refine ⟨hrf, ?_⟩
  unfold remove_cells
  rw [hrf, hhard]

/-- C10: on a grid with no zero cell, `solve_board` returns true immediately
and leaves the grid unchanged, whether or not the grid satisfies
row/column/subgrid uniqueness — no validity check is performed on an
already-full grid. -/
theorem solve_board_full_grid_immediate_true (shuffle : Nat → List Nat → List Nat)
    (board : Board) (k : Nat) (h : noZeros board) :
    solve_board shuffle board k = (true, board, k) := by
  unfold solve_board
  have hfe : find_empty board = none := (find_empty_none_iff board).mpr h
  simp [solveFuel, hfe]

/-- C7: when the full board produced inside `generate_puzzle "easy"` is a
valid solved grid (the situation the spec's deterministic scenario asserts
first), the returned puzzle contains exactly 46 non-zero cells (81 - 35; no
removal is ever rejected, because clearing cells of a solvable grid keeps it
solvable, so "fewer non-zero only after a rejected removal" holds vacuously),
and `solve_board` on a copy of the puzzle returns true for every candidate
ordering. -/
theorem generate_puzzle_easy_clue_count (shuffle : Nat → List Nat → List Nat)
    (shuffleC : List (Nat × Nat) → List (Nat × Nat)) (k : Nat)
    (hsh : permShuffle shuffle) (hC : ∀ l, (shuffleC l).Perm l)
    (hfull : solvedBoard (generate_full_board shuffle k).1) :
    nonzeroCount (generate_puzzle shuffle shuffleC "easy" k).1.1 = 46 ∧
    ∀ shuffle2 j, permShuffle shuffle2 →
      (solve_board shuffle2 (generate_puzzle shuffle shuffleC "easy" k).1.1 j).1 = true := by
  have heasy : removalsFor "easy" = 35 := by decide
  have hperm := hC allCells
  have hnd : (shuffleC allCells).Nodup := (hperm.nodup_iff).mpr allCells_nodup
  have hlen : (shuffleC allCells).length = 81 := by rw [hperm.length_eq, allCells_length]
  have hpz : (generate_puzzle shuffle shuffleC "easy" k).1.1
      = (removeLoop shuffle (shuffleC allCells) (generate_full_board shuffle k).1
          (generate_full_board shuffle k).1 (removalsFor "easy") 0
          (generate_full_board shuffle k).2).2.1 := rfl
  have hspec := removeLoop_spec shuffle hsh (generate_full_board shuffle k).1 hfull
      (shuffleC allCells) (generate_full_board shuffle k).1 (generate_full_board shuffle k).1
      (removalsFor "easy") 0 (generate_full_board shuffle k).2
      hnd
      (fun p hp => by
        have hmem := (mem_allCells p).mp (hperm.subset hp)
        exact ⟨hmem.1, hmem.2, rfl⟩)
      (fun r _ c _ => Or.inl rfl)
      (zeros_eq_zero _ hfull.1)
      (Nat.zero_le _)
      (by rw [heasy, hlen]; omega)
  rw [hpz]
  obtain ⟨hzfin, hsubfin⟩ := hspec
  have hz35 : zeros (removeLoop shuffle (shuffleC allCells) (generate_full_board shuffle k).1
      (generate_full_board shuffle k).1 (removalsFor "easy") 0
      (generate_full_board shuffle k).2).2.1 = 35 := hzfin.trans heasy
  constructor
  · have hcount := nonzeroCount_add_zeros
      (removeLoop shuffle (shuffleC allCells) (generate_full_board shuffle k).1
        (generate_full_board shuffle k).1 (removalsFor "easy") 0
        (generate_full_board shuffle k).2).2.1
    omega
  · intro shuffle2 j hsh2
    exact solveFuel_complete shuffle2 hsh2 (generate_full_board shuffle k).1 hfull _ _ j
      (Nat.lt_succ_self _) hsubfin

/-! ## Concrete grids and oracles for the witnesses -/

/-- A shuffle oracle that leaves every list in its given order. -/
def idShuffle : Nat → List Nat → List Nat := fun _ l => l

theorem idShuffle_perm : permShuffle idShuffle := fun _ _ => List.Perm.refl _

/-- A concrete valid solved grid; it completes the seeding in which each of
the three diagonal subgrids holds 1..9 in row-major order. -/
def wSol : Board := boardOfLists
  [[1, 2, 3, 5, 4, 7, 6, 9, 8],
   [4, 5, 6, 2, 9, 8, 3, 1, 7],
   [7, 8, 9, 3, 6, 1, 2, 4, 5],
   [5, 6, 8, 1, 2, 3, 9, 7, 4],
   [9, 1, 7, 4, 5, 6, 8, 3, 2],
   [2, 3, 4, 7, 8, 9, 5, 6, 1],
   [6, 9, 5, 8, 7, 4, 1, 2, 3],
   [8, 7, 1, 9, 3, 2, 4, 5, 6],
   [3, 4, 2, 6, 1, 5, 7, 8, 9]]

/-- An unsolvable grid: the first empty cell is (0,8), whose row already
holds 1-8 and whose column already holds 9, so the search fails at once. -/
def wBad : Board := boardOfLists
  [[1, 2, 3, 4, 5, 6, 7, 8, 0],
   [0, 0, 0, 0, 0, 0, 0, 0, 9]]

/-- A full grid that violates Sudoku uniqueness everywhere. -/
def wFives : Board := fun _ _ => 5

/-- The values of `wSol` at the 54 cells outside the diagonal subgrids, in
row-major order: exactly the digits the guided oracle `goodShuffle` feeds to
the solver so that its first candidate always succeeds. -/
def witSolDigits : List Nat :=
  [5, 4, 7, 6, 9, 8, 2, 9, 8, 3, 1, 7, 3, 6, 1, 2, 4, 5, 5, 6, 8, 9, 7, 4, 9, 1, 7,
   8, 3, 2, 2, 3, 4, 5, 6, 1, 6, 9, 5, 8, 7, 4, 8, 7, 1, 9, 3, 2, 3, 4, 2, 6, 1, 5]

/-- A legitimate shuffle oracle (it permutes its input) chosen so that a run
of `generate_full_board` starting at index 0 seeds the diagonal subgrids in
order and then steers every solver frame straight to the cell value of
`wSol`. -/
def goodShuffle : Nat → List Nat → List Nat := fun k l =>
  if k < 3 then l
  else if witSolDigits.getD (k - 3) 1 ∈ l then
    witSolDigits.getD (k - 3) 1 :: l.erase (witSolDigits.getD (k - 3) 1)
  else l

theorem goodShuffle_perm : permShuffle goodShuffle := by
  intro k l
  unfold goodShuffle
  split_ifs with h1 h2
  · exact List.Perm.refl l
  · exact (List.perm_cons_erase h2).symm
  · exact List.Perm.refl l

/-! ## Witnesses -/

/-- Witness for C1: the solved grid `wSol` with cell (0,0) cleared is solved
back to a valid full grid. -/
theorem solve_board_solves_derived_grids_witness :
    (solve_board idShuffle (setCell wSol 0 0 0) 0).1 = true ∧
      solvedBoard (solve_board idShuffle (setCell wSol 0 0 0) 0).2.1 :=
  solve_board_solves_derived_grids idShuffle (fun _ _ => List.Perm.refl _) wSol
    (setCell wSol 0 0 0) (by decide) (by decide) 0

/-- Witness for C2: on the unsolvable grid `wBad` the solver fails and the
returned grid is `wBad` itself. -/
theorem solve_board_failure_restores_grid_witness :
    (solve_board idShuffle wBad 0).2.1 = wBad :=
  solve_board_failure_restores_grid idShuffle wBad 0 (by decide)

/-- Witness for C5 at the grid `wSol`, coordinate (0,0), digit 1. -/
theorem is_safe_false_iff_digit_present_witness :
    is_safe wSol 0 0 1 = false ↔
      (∃ i < 9, wSol 0 i = 1) ∨ (∃ i < 9, wSol i 0 = 1) ∨
      (∃ dr < 3, ∃ dc < 3, wSol (0 - 0 % 3 + dr) (0 - 0 % 3 + dc) = 1) :=
  is_safe_false_iff_digit_present wSol 0 0 1 (by decide) (by decide) (by decide) (by decide)

/-- Witness for C6: from `wSol` with (0,0) cleared, one place step (digit 1
at the first empty cell) reaches a grid that still satisfies uniqueness. -/
theorem reach_preserves_validPartial_witness :
    validPartial (setCell (setCell wSol 0 0 0) 0 0 1) :=
  reach_preserves_validPartial (setCell wSol 0 0 0) (setCell (setCell wSol 0 0 0) 0 0 1)
    (by decide)
    (Reach.place _ 0 0 1 _ (by decide) (by decide) (by decide) (Reach.refl _))

/-- Witness for C7: with the guided oracle the generated full board is a
valid solved grid, and the easy puzzle drawn from it has exactly 46 clues
and is solvable. -/
theorem generate_puzzle_easy_clue_count_witness :
    nonzeroCount (generate_puzzle goodShuffle (fun l => l) "easy" 0).1.1 = 46 ∧
    ∀ shuffle2 j, permShuffle shuffle2 →
      (solve_board shuffle2 (generate_puzzle goodShuffle (fun l => l) "easy" 0).1.1 j).1 = true :=
  generate_puzzle_easy_clue_count goodShuffle (fun l => l) 0 goodShuffle_perm
    (fun l => List.Perm.refl l) (by decide)

/-- Witness for C9: the difficulty string "expert" is treated like "hard". -/
theorem unrecognized_difficulty_treated_as_hard_witness :
    removalsFor "expert" = 55 ∧
      remove_cells idShuffle (fun l => l) wSol "expert" 0
        = remove_cells idShuffle (fun l => l) wSol "hard" 0 :=
  unrecognized_difficulty_treated_as_hard idShuffle (fun l => l) wSol "expert" 0
    (by decide) (by decide)

/-- Witness for C10: the all-fives grid is full but violates uniqueness, and
the solver still returns true at once, leaving it unchanged. -/
theorem solve_board_full_grid_immediate_true_witness :
    solve_board idShuffle wFives 0 = (true, wFives, 0) :=
  solve_board_full_grid_immediate_true idShuffle wFives 0 (by decide)

/-! ## Unconditional support for the puzzle/solution relationship -/

theorem subBoard_trans (g h s : Board) (h1 : subBoard g h) (h2 : subBoard h s) :
    subBoard g s := by
  intro r hr c hc
  rcases h1 r hr c hc with he | he
  · rcases h2 r hr c hc with he2 | he2
    · exact Or.inl (he.trans he2)
    · exact Or.inr (he.trans he2)
  · exact Or.inr he

theorem setCell_overwrite (b : Board) (r c v w : Nat) :
    setCell (setCell b r c v) r c w = setCell b r c w := by
  funext x y
  unfold setCell
  by_cases h : x = r ∧ y = c
  · simp [h]
  · simp [h]

theorem setCell_same_value (b : Board) (r c : Nat) : setCell b r c (b r c) = b := by
  funext x y
  unfold setCell
  by_cases h : x = r ∧ y = c
  · obtain ⟨rfl, rfl⟩ := h
    simp
  · simp [h]

/-- Whatever the difficulty and oracles, every cell of the puzzle built by
the removal loop is either 0 or the cell of the grid it started from: a
removal clears a cell, and a rejected removal restores the original value. -/
theorem removeLoop_puzzle_subBoard (shuffle : Nat → List Nat → List Nat) :
    ∀ cells board puzzle removals removed k,
      subBoard (removeLoop shuffle cells board puzzle removals removed k).2.1 puzzle := by
  intro cells
  induction cells with
  | nil =>
    intro board puzzle removals removed k
    have hEq : removeLoop shuffle [] board puzzle removals removed k = (board, puzzle, k) := by
      simp [removeLoop]
    rw [hEq]
    exact fun r _ c _ => Or.inl rfl
  | cons p rest ih =>
    obtain ⟨r, c⟩ := p
    intro board puzzle removals removed k
    by_cases hge : removed ≥ removals
    · have hEq : removeLoop shuffle ((r, c) :: rest) board puzzle removals removed k
          = (board, puzzle, k) := by
        simp [removeLoop, hge]
      rw [hEq]
      exact fun r _ c _ => Or.inl rfl
    · have hsub0 : subBoard (setCell puzzle r c 0) puzzle := by
        intro x hx y hy
        by_cases hxy : x = r ∧ y = c
        · obtain ⟨rfl, rfl⟩ := hxy
          rw [setCell_self]
          exact Or.inr rfl
        · rw [setCell_of_ne _ _ _ _ _ _ hxy]
          exact Or.inl rfl
      cases hres : (solve_board shuffle (setCell puzzle r c 0) k).1 with
      | true =>
        have hcont : removeLoop shuffle ((r, c) :: rest) board puzzle removals removed k
            = removeLoop shuffle rest board (setCell puzzle r c 0) removals (removed + 1)
                (solve_board shuffle (setCell puzzle r c 0) k).2.2 := by
          simp [removeLoop, hge, hres]
        rw [hcont]
        exact subBoard_trans _ _ _ (ih _ _ _ _ _) hsub0
      | false =>
        have hrestore : setCell (setCell puzzle r c 0) r c (puzzle r c) = puzzle := by
          rw [setCell_overwrite, setCell_same_value]
        have hcont : removeLoop shuffle ((r, c) :: rest) board puzzle removals removed k
            = removeLoop shuffle rest board puzzle removals removed
                (solve_board shuffle (setCell puzzle r c 0) k).2.2 := by
          simp [removeLoop, hge, hres, hrestore]
        rw [hcont]
        exact ih _ _ _ _ _

/-- For every difficulty and all oracles, every non-zero cell of the puzzle
returned by `generate_puzzle` equals the corresponding cell of the returned
solution.  (This holds unconditionally; the validity of the solution itself
depends on the completability of the diagonal seeding.) -/
theorem generate_puzzle_puzzle_below_solution (shuffle : Nat → List Nat → List Nat)
    (shuffleC : List (Nat × Nat) → List (Nat × Nat)) (difficulty : String) (k : Nat) :
    subBoard (generate_puzzle shuffle shuffleC difficulty k).1.1
      (generate_puzzle shuffle shuffleC difficulty k).1.2 := by
  have hsol : (generate_puzzle shuffle shuffleC difficulty k).1.2
      = (generate_full_board shuffle k).1 :=
    removeLoop_board_fst shuffle (shuffleC allCells) (generate_full_board shuffle k).1
      (generate_full_board shuffle k).1 (removalsFor difficulty)
      0 (generate_full_board shuffle k).2
  rw [hsol]
  exact removeLoop_puzzle_subBoard shuffle (shuffleC allCells) (generate_full_board shuffle k).1
    (generate_full_board shuffle k).1 (removalsFor difficulty) 0 (generate_full_board shuffle k).2
